import Mathlib

/-!
Verification of the terminal control layer (`term.c` of the repository,
POSIX variant unless noted) against its natural-language specification.

Bytes are modelled as `Char` (each character standing for one byte of the
C `char*` buffers; all bytes relevant to the escape-sequence logic are
ASCII).  Machine integers (`ssize_t`, `int`) are modelled as `Int`/`Nat`;
none of the verified code paths can overflow them.
-/

namespace Term

/-- ASCII decimal digit, as matched by the `%zd` / `%d` conversions of
`sscanf` used throughout `term.c`. -/
def isDigitCh (c : Char) : Bool := 48 ≤ c.toNat && c.toNat ≤ 57

/-- CSI parameter byte (`0x30`–`0x3F`): digits, `;`, `?`, … — the bytes that
may appear between `ESC [` and the final byte of a CSI sequence. -/
def isCsiParam (c : Char) : Bool := 48 ≤ c.toNat && c.toNat ≤ 63

/-- CSI final byte (`0x40`–`0x7E`), terminating a CSI sequence. -/
def isCsiFinal (c : Char) : Bool := 64 ≤ c.toNat && c.toNat ≤ 126

/-- Modelled from the spec: the tail of a CSI sequence.  The repository's
Character Boundary Scanner `str_next_ofs` (declared in `stringbuf.h`,
implementation not part of the sources) "returns the byte length of the
next unit — either one CSI escape sequence (`ESC '[' ... final-byte`) or
one printable character — or 0 at end of input".  `csiSplit l` scans the
bytes following `ESC [`: it returns `some (params, final, rest)` when a
complete CSI sequence starts there (parameter bytes, final byte, remaining
input), and `none` when the sequence is incomplete or malformed (in which
case the scanner falls back to delimiting single characters). -/
def csiSplit : List Char → Option (List Char × Char × List Char)
  | [] => none
  | c :: cs =>
    if isCsiParam c then
      match csiSplit cs with
      | some (p, f, r) => some (c :: p, f, r)
      | none => none
    else if isCsiFinal c then some ([], c, cs)
    else none

theorem csiSplit_eq : ∀ {l p f r}, csiSplit l = some (p, f, r) → l = p ++ f :: r := by
  intro l
  induction l with
  | nil => intro p f r h; simp [csiSplit] at h
  | cons c cs ih =>
    intro p f r h
    simp only [csiSplit] at h
    split at h
    · cases hcs : csiSplit cs with
      | none => rw [hcs] at h; exact absurd h (by simp)
      | some v =>
        obtain ⟨p', f', r'⟩ := v
        rw [hcs] at h
        simp at h
        obtain ⟨hp, hf, hr⟩ := h
        subst hp hf hr
        simpa using congrArg (c :: ·) (ih hcs)
    · split at h
      · simp at h
        obtain ⟨hp, hf, hr⟩ := h
        subst hp hf hr
        simp
      · exact absurd h (by simp)

theorem csiSplit_param_final : ∀ {l p f r}, csiSplit l = some (p, f, r) →
    (∀ c ∈ p, isCsiParam c = true) ∧ isCsiFinal f = true := by
  intro l
  induction l with
  | nil => intro p f r h; simp [csiSplit] at h
  | cons c cs ih =>
    intro p f r h
    simp only [csiSplit] at h
    split at h
    · rename_i hparam
      cases hcs : csiSplit cs with
      | none => rw [hcs] at h; exact absurd h (by simp)
      | some v =>
        obtain ⟨p', f', r'⟩ := v
        rw [hcs] at h
        simp at h
        obtain ⟨hp, hf, hr⟩ := h
        subst hp hf hr
        obtain ⟨hall, hfin⟩ := ih hcs
        refine ⟨?_, hfin⟩
        intro x hx
        rcases List.mem_cons.mp hx with hx | hx
        · exact hx ▸ hparam
        · exact hall x hx
    · split at h
      · rename_i hfin
        simp at h
        obtain ⟨hp, hf, hr⟩ := h
        subst hp hf hr
        exact ⟨by simp, hfin⟩
      · exact absurd h (by simp)

theorem csiSplit_rest_lt : ∀ {l p f r}, csiSplit l = some (p, f, r) →
    r.length < l.length := by
  intro l p f r h
  have := csiSplit_eq h
  subst this
  simp
  omega

/-- A parameter byte is never `ESC`. -/
theorem csiParam_ne_esc {c : Char} (h : isCsiParam c = true) : c ≠ '\x1B' := by
  intro hc
  subst hc
  simp [isCsiParam] at h

/-- A final byte is never `ESC`. -/
theorem csiFinal_ne_esc {c : Char} (h : isCsiFinal c = true) : c ≠ '\x1B' := by
  intro hc
  subst hc
  simp [isCsiFinal] at h

/-- A final byte is never a digit (finals are `0x40`–`0x7E`, digits
`0x30`–`0x39`). -/
theorem csiFinal_not_digit {c : Char} (h : isCsiFinal c = true) : isDigitCh c = false := by
  simp [isCsiFinal] at h
  simp [isDigitCh]
  omega

/-! ### Tolerant numeric parameter parsing (the `sscanf("%zd")` calls)

Inside a scanned CSI sequence the parameter area consists of parameter
bytes only, so the `sscanf` conversions never see whitespace or a sign:
they read a maximal run of leading decimal digits, or fail (leaving the
output variable untouched) when the first byte is not a digit. -/

/-- Value accumulated by reading further leading digits. -/
def leadDigitsVal : List Char → Nat → Nat
  | [], n => n
  | c :: cs, n => if isDigitCh c then leadDigitsVal cs (10 * n + (c.toNat - 48)) else n

/-- `sscanf(s, "%zd", &n)`: `some` the parsed number when `s` starts with a
digit, `none` (conversion failure, `n` keeps its prior value) otherwise. -/
def leadNum : List Char → Option Nat
  | [] => none
  | c :: cs => if isDigitCh c then some (leadDigitsVal cs (c.toNat - 48)) else none

/-- Input remaining after the leading digit run (where `sscanf` would
continue matching its format string). -/
def dropDigits : List Char → List Char
  | [] => []
  | c :: cs => if isDigitCh c then dropDigits cs else c :: cs

theorem leadDigitsVal_append_nondigit {c : Char} (hc : isDigitCh c = false) :
    ∀ (xs : List Char) (n : Nat), leadDigitsVal (xs ++ [c]) n = leadDigitsVal xs n := by
  intro xs
  induction xs with
  | nil => intro n; simp [leadDigitsVal, hc]
  | cons x xs ih =>
    intro n
    simp only [List.cons_append, leadDigitsVal]
    split
    · exact ih _
    · rfl

theorem leadNum_append_nondigit {c : Char} (hc : isDigitCh c = false) (xs : List Char) :
    leadNum (xs ++ [c]) = leadNum xs := by
  cases xs with
  | nil => simp [leadNum, hc]
  | cons x xs =>
    simp only [List.cons_append, leadNum]
    split
    · rw [leadDigitsVal_append_nondigit hc]
    · rfl

/-! ### POSIX Direct Write Path (`term_write_esc` / `term_write_direct`)

The model returns the bytes handed to `term_write_console` (i.e. to the
`write` system call on the output file descriptor), concatenated.  The
source batches maximal runs of non-escape bytes into single
`term_write_console` calls; since only the emitted byte stream is
specified, the model emits bytes unit by unit — the concatenation is
identical. -/

/-- Numeric color range dropped by the strip path:
`(n >= 30 && n <= 49) || (n >= 90 && n <= 109)`. -/
def inColorRange (n : Nat) : Bool := (30 ≤ n && n ≤ 49) || (90 ≤ n && n ≤ 109)

/-- `term_write_esc` (POSIX variant): given one whole escape sequence `s`,
drop it when color is disabled, the sequence is CSI (`s[1] == '['`), its
final byte is `'m'`, and its parameter — parsed by `sscanf(s+2, "%zd", &n)`
with `n` initialised to `1` — lies in the color range; otherwise write the
sequence through unchanged. -/
def term_write_esc (nocolor : Bool) (s : List Char) : List Char :=
  if nocolor = true ∧ s.get? 1 = some '[' ∧ s.getLast? = some 'm' then
    if inColorRange ((leadNum (s.drop 2)).getD 1) then [] else s
  else s

/-- One step of the Character Boundary Scanner after an `ESC` byte: the
remainder of a complete CSI sequence starting at `ESC :: cs`, if any
(`some (unitTail, rest)` with `unitTail = '[' :: params ++ [final]`). -/
def csiUnit (cs : List Char) : Option (List Char × List Char) :=
  match cs with
  | c2 :: cs2 =>
    if c2 = '[' then
      match csiSplit cs2 with
      | some (p, f, r) => some ('[' :: (p ++ [f]), r)
      | none => none
    else none
  | [] => none

theorem csiUnit_rest_lt {cs ut r : List Char} (h : csiUnit cs = some (ut, r)) :
    r.length < cs.length := by
  unfold csiUnit at h
  cases cs with
  | nil => simp at h
  | cons c2 cs2 =>
    simp only at h
    split at h
    · cases hs : csiSplit cs2 with
      | none => rw [hs] at h; simp at h
      | some v =>
        obtain ⟨p, f, r'⟩ := v
        rw [hs] at h
        simp at h
        obtain ⟨-, hr⟩ := h
        subst hr
        have := csiSplit_rest_lt hs
        simp
        omega
    · simp at h

/-- The strip loop of `term_write_direct` (POSIX, `nocolor` branch): the
input is segmented by the Character Boundary Scanner; whole escape
sequences (scanner unit length `> 1` with leading `ESC`) go through
`term_write_esc`, every other unit goes to `term_write_console`
unchanged.  Returns the concatenated console output. -/
def writeDirectStrip (nocolor : Bool) : List Char → List Char
  | [] => []
  | c :: cs =>
    if c = '\x1B' then
      match h : csiUnit cs with
      | some (ut, r) => term_write_esc nocolor ('\x1B' :: ut) ++ writeDirectStrip nocolor r
      | none => '\x1B' :: writeDirectStrip nocolor cs
    else c :: writeDirectStrip nocolor cs
termination_by s => s.length
decreasing_by
  · simp only [List.length_cons]
    exact Nat.lt_trans (csiUnit_rest_lt h) (Nat.lt_succ_self _)
  · simp
  · simp

/-- `term_write_direct` (POSIX variant): with color enabled the bytes are
written as-is; with color disabled the CSI-color strip loop runs.
Returns the bytes reaching the console. -/
def term_write_direct (nocolor : Bool) (s : List Char) : List Char :=
  if nocolor = false then s else writeDirectStrip nocolor s

/-! ### Spec-side description of color stripping (claim C2)

The spec states the strip path "produces output identical to the input
with every such sequence removed and all other bytes (including non-color
CSI sequences) unchanged", a color sequence being a CSI sequence whose
final byte is `'m'` and whose first numeric parameter lies in 30..49 or
90..109. -/

/-- Follows the spec's words: if the input starts (after `ESC`) with a
complete CSI sequence whose final byte is `'m'` and whose first numeric
parameter lies in the color ranges, return the input remaining after that
sequence. -/
def colorSeqTail (cs : List Char) : Option (List Char) :=
  match cs with
  | c2 :: cs2 =>
    if c2 = '[' then
      match csiSplit cs2 with
      | some (p, f, r) =>
        if f = 'm' then
          match leadNum p with
          | some n => if inColorRange n then some r else none
          | none => none
        else none
      | none => none
    else none
  | [] => none

theorem colorSeqTail_lt {cs r : List Char} (h : colorSeqTail cs = some r) :
    r.length < cs.length := by
  unfold colorSeqTail at h
  cases cs with
  | nil => simp at h
  | cons c2 cs2 =>
    simp only at h
    split at h
    · cases hs : csiSplit cs2 with
      | none => rw [hs] at h; simp at h
      | some v =>
        obtain ⟨p, f, r'⟩ := v
        rw [hs] at h
        simp only at h
        split at h
        · cases hn : leadNum p with
          | none => rw [hn] at h; simp at h
          | some n =>
            rw [hn] at h
            split at h
            · simp at h
              obtain ⟨-, hr⟩ := h
              subst hr
              have := csiSplit_rest_lt hs
              simp
              omega
            · simp at h
        · simp at h
    · simp at h

/-- Follows the spec's words: the input with every CSI color sequence
(final byte `'m'`, first numeric parameter in 30..49 or 90..109) removed
and all other bytes kept unchanged, scanning left to right. -/
def stripColorsSpec : List Char → List Char
  | [] => []
  | c :: cs =>
    if c = '\x1B' then
      match h : colorSeqTail cs with
      | some r => stripColorsSpec r
      | none => c :: stripColorsSpec cs
    else c :: stripColorsSpec cs
termination_by s => s.length
decreasing_by
  · simp only [List.length_cons]
    exact Nat.lt_trans (colorSeqTail_lt h) (Nat.lt_succ_self _)
  · simp
  · simp

theorem stripColorsSpec_nil : stripColorsSpec [] = [] := by
  simp [stripColorsSpec]

theorem stripColorsSpec_cons_ne_esc {c : Char} (hc : c ≠ '\x1B') (cs : List Char) :
    stripColorsSpec (c :: cs) = c :: stripColorsSpec cs := by
  rw [stripColorsSpec]
  simp [hc]

/-- Bytes that are not `ESC` are always kept by the spec-side strip. -/
theorem stripColorsSpec_append_run {xs : List Char} (hx : ∀ c ∈ xs, c ≠ '\x1B')
    (r : List Char) : stripColorsSpec (xs ++ r) = xs ++ stripColorsSpec r := by
  induction xs with
  | nil => simp
  | cons c cs ih =>
    have hc : c ≠ '\x1B' := hx c (by simp)
    rw [List.cons_append, stripColorsSpec_cons_ne_esc hc]
    rw [ih (fun d hd => hx d (by simp [hd]))]
    rfl

/-! ### Unfolding lemmas for the two strip functions -/

theorem writeDirectStrip_cons_ne_esc {c : Char} (hc : c ≠ '\x1B') (nc : Bool)
    (cs : List Char) : writeDirectStrip nc (c :: cs) = c :: writeDirectStrip nc cs := by
  rw [writeDirectStrip]
  simp [hc]

theorem writeDirectStrip_esc_some {cs ut r : List Char} (h : csiUnit cs = some (ut, r))
    (nc : Bool) :
    writeDirectStrip nc ('\x1B' :: cs) =
      term_write_esc nc ('\x1B' :: ut) ++ writeDirectStrip nc r := by
  rw [writeDirectStrip]
  rw [if_pos rfl]
  split <;> simp_all

theorem writeDirectStrip_esc_none {cs : List Char} (h : csiUnit cs = none) (nc : Bool) :
    writeDirectStrip nc ('\x1B' :: cs) = '\x1B' :: writeDirectStrip nc cs := by
  rw [writeDirectStrip]
  rw [if_pos rfl]
  split <;> simp_all

theorem stripColorsSpec_esc_some {cs r : List Char} (h : colorSeqTail cs = some r) :
    stripColorsSpec ('\x1B' :: cs) = stripColorsSpec r := by
  rw [stripColorsSpec]
  rw [if_pos rfl]
  split <;> simp_all

theorem stripColorsSpec_esc_none {cs : List Char} (h : colorSeqTail cs = none) :
    stripColorsSpec ('\x1B' :: cs) = '\x1B' :: stripColorsSpec cs := by
  rw [stripColorsSpec]
  rw [if_pos rfl]
  split <;> simp_all

theorem csiUnit_eq_some {cs ut r : List Char} (h : csiUnit cs = some (ut, r)) :
    ∃ cs2 p f, cs = '[' :: cs2 ∧ csiSplit cs2 = some (p, f, r) ∧
      ut = '[' :: (p ++ [f]) := by
  unfold csiUnit at h
  cases cs with
  | nil => simp at h
  | cons c2 cs2 =>
    simp only at h
    split at h
    · rename_i hc2
      cases hs : csiSplit cs2 with
      | none => rw [hs] at h; simp at h
      | some v =>
        obtain ⟨p, f, r'⟩ := v
        rw [hs] at h
        simp at h
        obtain ⟨hut, hr⟩ := h
        subst hc2 hr
        exact ⟨cs2, p, f, rfl, hs, hut.symm⟩
    · simp at h

theorem csiUnit_none_colorSeqTail {cs : List Char} (h : csiUnit cs = none) :
    colorSeqTail cs = none := by
  unfold csiUnit at h
  unfold colorSeqTail
  cases cs with
  | nil => rfl
  | cons c2 cs2 =>
    simp only at h ⊢
    split
    · cases hs : csiSplit cs2 with
      | none => rfl
      | some v =>
        obtain ⟨p, f, r⟩ := v
        rename_i hc2
        rw [hc2] at h
        simp [hs] at h
    · rfl

theorem colorSeqTail_split {cs2 p r : List Char} {f : Char}
    (hsplit : csiSplit cs2 = some (p, f, r)) :
    colorSeqTail ('[' :: cs2) =
      (if f = 'm' then
        match leadNum p with
        | some nv => if inColorRange nv then some r else none
        | none => none
       else none) := by
  unfold colorSeqTail
  simp [hsplit]

theorem spec_kept_unit {cs2 p r : List Char} {f : Char}
    (hsplit : csiSplit cs2 = some (p, f, r))
    (hnone : colorSeqTail ('[' :: cs2) = none) :
    stripColorsSpec ('\x1B' :: '[' :: cs2) =
      ('\x1B' :: '[' :: (p ++ [f])) ++ stripColorsSpec r := by
  rw [stripColorsSpec_esc_none hnone]
  obtain ⟨hpar, hfin⟩ := csiSplit_param_final hsplit
  have hcs2 : cs2 = p ++ f :: r := csiSplit_eq hsplit
  subst hcs2
  have hxs : ∀ c ∈ ('[' :: (p ++ [f]) : List Char), c ≠ '\x1B' := by
    intro c hcmem
    rcases List.mem_cons.mp hcmem with hcm | hcm
    · subst hcm; decide
    · rcases List.mem_append.mp hcm with hcm | hcm
      · exact csiParam_ne_esc (hpar c hcm)
      · have : c = f := by simpa using hcm
        subst this
        exact csiFinal_ne_esc hfin
  rw [show ('[' : Char) :: (p ++ f :: r) = ('[' :: (p ++ [f])) ++ r by simp]
  rw [stripColorsSpec_append_run hxs r]
  simp

theorem writeDirectStrip_eq_spec_aux :
    ∀ (n : Nat) (s : List Char), s.length ≤ n →
      writeDirectStrip true s = stripColorsSpec s := by
  intro n
  induction n with
  | zero =>
    intro s hs
    have hnil : s = [] := List.length_eq_zero.mp (Nat.le_zero.mp hs)
    subst hnil
    rw [writeDirectStrip, stripColorsSpec]
  | succ n ih =>
    intro s hs
    cases s with
    | nil => rw [writeDirectStrip, stripColorsSpec]
    | cons c cs =>
      by_cases hc : c = '\x1B'
      · subst hc
        cases hcu : csiUnit cs with
        | none =>
          rw [writeDirectStrip_esc_none hcu,
            stripColorsSpec_esc_none (csiUnit_none_colorSeqTail hcu)]
          rw [ih cs (by simpa using Nat.succ_le_succ_iff.mp hs)]
        | some v =>
          obtain ⟨ut, r⟩ := v
          obtain ⟨cs2, p, f, hcs, hsplit, hut⟩ := csiUnit_eq_some hcu
          subst hcs hut
          rw [writeDirectStrip_esc_some hcu]
          have hr_le : r.length ≤ n := by
            have h1 := csiSplit_rest_lt hsplit
            simp only [List.length_cons] at hs
            omega
          obtain ⟨hpar, hfin⟩ := csiSplit_param_final hsplit
          have hfd : isDigitCh f = false := csiFinal_not_digit hfin
          have hdrop : ('\x1B' :: '[' :: (p ++ [f])).drop 2 = p ++ [f] := rfl
          have hlast : ('\x1B' :: '[' :: (p ++ [f])).getLast? = some f := by
            rw [show ('\x1B' :: '[' :: (p ++ [f])) = ('\x1B' :: '[' :: p) ++ [f] by simp]
            exact List.getLast?_concat _
          have hget1 : ('\x1B' :: '[' :: (p ++ [f])).get? 1 = some '[' := rfl
          have hnum : leadNum (p ++ [f]) = leadNum p := leadNum_append_nondigit hfd p
          by_cases hfm : f = 'm'
          · cases hlp : leadNum p with
            | none =>
              have himpl : term_write_esc true ('\x1B' :: '[' :: (p ++ [f])) =
                  '\x1B' :: '[' :: (p ++ [f]) := by
                unfold term_write_esc
                rw [if_pos ⟨rfl, hget1, by rw [hlast, hfm]⟩, hdrop, hnum, hlp]
                simp [inColorRange]
              have hcst : colorSeqTail ('[' :: cs2) = none := by
                rw [colorSeqTail_split hsplit, if_pos hfm, hlp]
              rw [himpl, spec_kept_unit hsplit hcst, ih r hr_le]
            | some nv =>
              by_cases hrange : inColorRange nv = true
              · have himpl : term_write_esc true ('\x1B' :: '[' :: (p ++ [f])) = [] := by
                  unfold term_write_esc
                  rw [if_pos ⟨rfl, hget1, by rw [hlast, hfm]⟩, hdrop, hnum, hlp]
                  simp [hrange]
                have hcst : colorSeqTail ('[' :: cs2) = some r := by
                  rw [colorSeqTail_split hsplit, if_pos hfm, hlp]
                  simp [hrange]
                rw [himpl, stripColorsSpec_esc_some hcst, ih r hr_le]
                simp
              · have himpl : term_write_esc true ('\x1B' :: '[' :: (p ++ [f])) =
                    '\x1B' :: '[' :: (p ++ [f]) := by
                  unfold term_write_esc
                  rw [if_pos ⟨rfl, hget1, by rw [hlast, hfm]⟩, hdrop, hnum, hlp]
                  simp [hrange]
                have hcst : colorSeqTail ('[' :: cs2) = none := by
                  rw [colorSeqTail_split hsplit, if_pos hfm, hlp]
                  simp [hrange]
                rw [himpl, spec_kept_unit hsplit hcst, ih r hr_le]
          · have himpl : term_write_esc true ('\x1B' :: '[' :: (p ++ [f])) =
                '\x1B' :: '[' :: (p ++ [f]) := by
              unfold term_write_esc
              rw [if_neg]
              intro hcond
              obtain ⟨-, -, hl⟩ := hcond
              rw [hlast] at hl
              exact hfm (by simpa using hl)
            have hcst : colorSeqTail ('[' :: cs2) = none := by
              rw [colorSeqTail_split hsplit, if_neg hfm]
            rw [himpl, spec_kept_unit hsplit hcst, ih r hr_le]
      · rw [writeDirectStrip_cons_ne_esc hc, stripColorsSpec_cons_ne_esc hc]
        rw [ih cs (by simpa using Nat.succ_le_succ_iff.mp hs)]

/-! ### Terminal state (`struct term_s`) and the write/buffer operations

The POSIX fields of `struct term_s`.  The `stringbuf_t* buf` is modelled
as the byte list it holds (`[]` standing for an empty or not yet
allocated buffer); `sbuf_new` is modelled as succeeding, so
`term_start_buffered` always sets the flag (the allocation-failure
degradation path is not needed by any claim).  `fout` and the allocator
are irrelevant to the claims and omitted. -/

structure term_s where
  width : Int
  height : Int
  nocolor : Bool
  silent : Bool
  raw_enabled : Bool
  buffered : Bool
  buf : List Char
deriving DecidableEq

/-- Observable byte-level effects of an operation: one call to
`term_write_direct` (recording the `nocolor` flag in force at the call and
the bytes handed to it), or the bell byte `\x7` printed to `stderr`. -/
inductive Ev where
  | directWrite : Bool → List Char → Ev
  | bell : Ev
deriving DecidableEq

def Ev.isDirectWrite : Ev → Bool
  | .directWrite _ _ => true
  | .bell => false

/-- Number of physical writes through the Direct Write Path in a trace. -/
def directWriteCount (evs : List Ev) : Nat := (evs.filter Ev.isDirectWrite).length

/-- Bytes reaching the console (`fout`): each recorded `term_write_direct`
call filtered through the pass-through/strip path. -/
def consoleOutput (evs : List Ev) : List Char :=
  (evs.map fun ev =>
    match ev with
    | .directWrite nc s => term_write_direct nc s
    | .bell => []).flatten

/-- `term_write_n`: direct write when not buffering, append to the buffer
otherwise. -/
def term_write_n (st : term_s) (s : List Char) : term_s × List Ev :=
  if st.buffered = false then (st, [Ev.directWrite st.nocolor s])
  else ({ st with buf := st.buf ++ s }, [])

/-- `term_start_buffered` (buffer allocation modelled as succeeding). -/
def term_start_buffered (st : term_s) : term_s := { st with buffered := true }

/-- `term_end_buffered`: returns the state, the emitted events and the
boolean result.  `wOk` is the oracle for the success of the underlying
`write` call performed by `term_write_direct` at the flush. -/
def term_end_buffered (st : term_s) (wOk : Bool) : term_s × List Ev × Bool :=
  if st.buffered = false then (st, [], true)
  else
    let st1 := { st with buffered := false }
    if st1.buf ≠ [] then
      ({ st1 with buf := [] }, [Ev.directWrite st.nocolor st.buf], wOk)
    else (st1, [], true)

/-- `term_vwritef` / `term_writef`: `s` is the formatted byte output of
`sbuf_append_vprintf`.  When already buffering it appends; otherwise it
opens a fresh buffering cycle and immediately flushes it. -/
def term_vwritef (st : term_s) (s : List Char) (wOk : Bool) : term_s × List Ev × Bool :=
  let buffering := st.buffered
  let st1 := term_start_buffered st
  let st2 := { st1 with buf := st1.buf ++ s }
  if buffering = false then term_end_buffered st2 wOk
  else (st2, [], true)

/-- `term_enable_color`. -/
def term_enable_color (st : term_s) (enable : Bool) : term_s :=
  { st with nocolor := !enable }

/-- `term_enable_beep`. -/
def term_enable_beep (st : term_s) (enable : Bool) : term_s :=
  { st with silent := !enable }

/-- `term_beep`: nothing when silent, otherwise the bell byte straight to
`stderr` (never through the buffer or the Direct Write Path). -/
def term_beep (st : term_s) : term_s × List Ev :=
  if st.silent then (st, []) else (st, [Ev.bell])

/-- `term_start_raw` (POSIX): sets the flag, no-op when already raw. -/
def term_start_raw (st : term_s) : term_s :=
  if st.raw_enabled then st else { st with raw_enabled := true }

/-- `term_end_raw` (POSIX): clears the flag, no-op when not raw. -/
def term_end_raw (st : term_s) : term_s :=
  if !st.raw_enabled then st else { st with raw_enabled := false }

/-! ### Sequencing of operations -/

inductive TermOp where
  | write : List Char → TermOp
  | writef : List Char → TermOp
  | startBuffered : TermOp
  | endBuffered : Bool → TermOp
  | enableColor : Bool → TermOp
  | beep : TermOp
  | startRaw : TermOp
  | endRaw : TermOp
deriving DecidableEq

def term_step (st : term_s) : TermOp → term_s × List Ev
  | .write s => term_write_n st s
  | .writef s => let r := term_vwritef st s true; (r.1, r.2.1)
  | .startBuffered => (term_start_buffered st, [])
  | .endBuffered wOk => let r := term_end_buffered st wOk; (r.1, r.2.1)
  | .enableColor b => (term_enable_color st b, [])
  | .beep => term_beep st
  | .startRaw => (term_start_raw st, [])
  | .endRaw => (term_end_raw st, [])

def term_run (st : term_s) : List TermOp → term_s × List Ev
  | [] => (st, [])
  | op :: ops =>
    let r1 := term_step st op
    let r2 := term_run r1.1 ops
    (r2.1, r1.2 ++ r2.2)

/-- The state fields `term_new` initialises before probing: 80×25,
caller-supplied flags, everything else off/empty. -/
def term_init (nocolor silent : Bool) : term_s :=
  { width := 80, height := 25, nocolor := nocolor, silent := silent,
    raw_enabled := false, buffered := false, buf := [] }

/-- Logical write payload of an operation, if it is one of the logical
write entry points (`term_write`/`term_write_n` carry the bytes directly;
`term_writef` carries its formatted output). -/
def logicalPayload : TermOp → Option (List Char)
  | .write s => some s
  | .writef s => some s
  | _ => none

def payloads (ops : List TermOp) : List (List Char) := ops.filterMap logicalPayload

/-! ### Interactivity query (`term_is_interactive`)

The source tests `strstr("dumb|DUMB|cons25|CONS25|emacs|EMACS", eterm)`,
i.e. whether the `TERM` value occurs as a contiguous substring of that
fixed string (note the argument order: the deny string is the haystack). -/

/-- The fixed deny string of `term_is_interactive`. -/
def denyTerms : List Char := "dumb|DUMB|cons25|CONS25|emacs|EMACS".toList

/-- `strstr(hay, needle) != NULL`: `needle` occurs as a contiguous
substring of `hay` (libc semantics, scanning every suffix; the empty
needle matches immediately). -/
def strstr_found (needle : List Char) : List Char → Bool
  | [] => needle.isPrefixOf []
  | c :: t => needle.isPrefixOf (c :: t) || strstr_found needle t

/-- `term_is_interactive`: `eterm` is `getenv("TERM")` (`none` when the
variable is absent). -/
def term_is_interactive (eterm : Option (List Char)) : Bool :=
  match eterm with
  | some t => !(strstr_found t denyTerms)
  | none => true

theorem strstr_found_iff_infix (needle : List Char) :
    ∀ hay : List Char, strstr_found needle hay = true ↔ needle <:+: hay := by
  intro hay
  induction hay with
  | nil =>
    simp only [strstr_found]
    rw [ List.isPrefixOf_iff_prefix, List.prefix_nil, List.infix_nil]
  | cons c t ih =>
    simp only [strstr_found, Bool.or_eq_true]
    rw [ List.isPrefixOf_iff_prefix, ih]
    constructor
    · rintro (h | h)
      · exact h.isInfix
      · exact h.trans (List.suffix_cons c t).isInfix
    · intro h
      rcases List.infix_cons_iff.mp h with h | h
      · exact Or.inl h
      · exact Or.inr h

/-! ### Dimension prober (`term_update_dim`, POSIX) and `term_new`

OS interactions are oracles: `io` is the `ioctl(1, TIOCGWINSZ)` result
(`some (rows, cols)` on success — `ws_row`/`ws_col` are unsigned, hence
`Nat`), `p1`/`p2` the two `term_get_cursor_pos` replies (`some (row, col)`
when the `ESC [ row ; col R` report was read and parsed; the digits-only
reply buffer makes the parsed values non-negative, hence `Nat`).  The
cursor-move escapes the fallback emits are not dimension-relevant and not
recorded here. -/

def term_update_dim (st : term_s) (io : Option (Nat × Nat))
    (p1 p2 : Option (Nat × Nat)) : term_s × Bool :=
  let rc : Int × Int :=
    match io with
    | some (r, c) => ((r : Int), (c : Int))
    | none =>
      match p1 with
      | some _ =>
        match p2 with
        | some (r1, c1) => ((r1 : Int), (c1 : Int))
        | none => (0, 0)
      | none => (0, 0)
  let changed := decide (st.width ≠ rc.2) || decide (st.height ≠ rc.1)
  ({ st with width := rc.2, height := rc.1 }, changed)

/-- `term_new`: zero-initialised handle, 80×25 defaults, `COLUMNS`/`LINES`
environment hints (`envCols`/`envLines` are the values parsed by
`sscanf("%zd")`, `none` when absent or unparsable; `%zd` accepts a sign,
hence `Int`), then `term_init_raw` (a POSIX no-op) and one
`term_update_dim` probe. -/
def term_new (nocolor silent : Bool) (envCols envLines : Option Int)
    (io p1 p2 : Option (Nat × Nat)) : term_s :=
  let st0 := term_init nocolor silent
  let st1 := match envCols with
    | some c => { st0 with width := c }
    | none => st0
  let st2 := match envLines with
    | some l => { st1 with height := l }
    | none => st1
  (term_update_dim st2 io p1 p2).1

/-! ### Windows ANSI-to-console emulation (`esc_param`, `term_write_esc`)

The Windows `term_write_esc` dispatches each CSI sequence to a console
API routine.  The routines themselves act on the Windows console; the
model records which routine is invoked with which (already defaulted)
numeric arguments.  `line_down`/`line_up`/`column_abs` stand for the
`'E'`/`'F'`/`'G'` cases (read cursor, adjust one coordinate, move). -/

inductive win_cmd where
  | move_cursor : Int → Int → Int → win_cmd
  | move_cursor_to : Int → Int → win_cmd
  | erase_line : Int → win_cmd
  | esc_attr : Int → win_cmd
  | line_down : Int → win_cmd
  | line_up : Int → win_cmd
  | column_abs : Int → win_cmd
  | clear_screen : Int → win_cmd
  | cursor_visible : Bool → win_cmd
  | cursor_save : win_cmd
  | cursor_restore : win_cmd
  | ignored : win_cmd
deriving DecidableEq

/-- `esc_param`: `n = def; sscanf(s, "%zd", &n); return n`. -/
def esc_param (s : List Char) (d : Int) : Int :=
  match leadNum s with
  | some n => (n : Int)
  | none => d

/-- `esc_param2`: `*p1 = *p2 = def; sscanf(s, "%zd;%zd", p1, p2)` — the
second conversion only happens when the first number and the literal `;`
both matched. -/
def esc_param2 (s : List Char) (d : Int) : Int × Int :=
  match leadNum s with
  | none => (d, d)
  | some n1 =>
    match dropDigits s with
    | c :: cs => if c = ';' then ((n1 : Int), esc_param cs d) else ((n1 : Int), d)
    | [] => ((n1 : Int), d)

/-- `term_write_esc` (Windows variant): dispatch on the final byte
`s[len-1]` of the CSI sequence, parameters parsed from `s + 2`. -/
def term_write_esc_w (s : List Char) : win_cmd :=
  if s.get? 1 = some '[' then
    match s.getLast? with
    | some 'A' => .move_cursor (-1) 0 (esc_param (s.drop 2) 1)
    | some 'B' => .move_cursor 1 0 (esc_param (s.drop 2) 1)
    | some 'C' => .move_cursor 0 1 (esc_param (s.drop 2) 1)
    | some 'D' => .move_cursor 0 (-1) (esc_param (s.drop 2) 1)
    | some 'H' =>
      let rc := esc_param2 (s.drop 2) 1
      .move_cursor_to rc.1 rc.2
    | some 'K' => .erase_line (esc_param (s.drop 2) 0)
    | some 'm' => .esc_attr (esc_param (s.drop 2) 0)
    | some 'E' => .line_down (esc_param (s.drop 2) 1)
    | some 'F' => .line_up (esc_param (s.drop 2) 1)
    | some 'G' => .column_abs (esc_param (s.drop 2) 1)
    | some 'J' => .clear_screen (esc_param (s.drop 2) 0)
    | some 'h' =>
      if (s.drop 2).take 4 = ['?', '2', '5', 'h'] then .cursor_visible true else .ignored
    | some 'l' =>
      if (s.drop 2).take 4 = ['?', '2', '5', 'l'] then .cursor_visible false else .ignored
    | some 's' => .cursor_save
    | some 'u' => .cursor_restore
    | _ => .ignored
  else .ignored

/-! ### Windows raw mode (`term_start_raw` / `term_end_raw`, Windows)

Windows raw mode snapshots and restores console attribute word, mode and
code page.  `wcon` is the mutable console state touched by these calls;
`qok` is the success oracle of `GetConsoleScreenBufferInfo` at entry
(failure skips only the attribute capture).  `winRawMode` stands for the
`ENABLE_PROCESSED_OUTPUT | ...` mode word installed at entry. -/

structure wcon where
  attr : Nat
  mode : Nat
  cp : Nat
deriving DecidableEq

structure wterm where
  raw_enabled : Bool
  hcon_orig_attr : Nat
  hcon_orig_mode : Nat
  hcon_orig_cp : Nat
deriving DecidableEq

def winRawMode : Nat := 1

def term_start_raw_w (t : wterm) (c : wcon) (qok : Bool) : wterm × wcon :=
  if t.raw_enabled then (t, c)
  else
    ({ raw_enabled := true,
       hcon_orig_attr := if qok then c.attr else t.hcon_orig_attr,
       hcon_orig_mode := c.mode,
       hcon_orig_cp := c.cp },
     { c with cp := 65001, mode := winRawMode })

def term_end_raw_w (t : wterm) (c : wcon) : wterm × wcon :=
  if !t.raw_enabled then (t, c)
  else
    ({ t with raw_enabled := false },
     { mode := t.hcon_orig_mode, cp := t.hcon_orig_cp, attr := t.hcon_orig_attr })

/-! ### Behaviour of runs of logical writes while buffering is active -/

theorem term_run_append (l1 l2 : List TermOp) : ∀ st : term_s,
    term_run st (l1 ++ l2) =
      ((term_run (term_run st l1).1 l2).1,
        (term_run st l1).2 ++ (term_run (term_run st l1).1 l2).2) := by
  induction l1 with
  | nil => intro st; simp [term_run]
  | cons op l1 ih =>
    intro st
    simp only [List.cons_append, term_run, List.append_eq]
    rw [ih]
    simp [List.append_assoc]

/-- While buffering is active, a run of logical writes emits nothing and
appends its payloads, in call order, to the buffer. -/
theorem term_run_logical_writes (ops : List TermOp) : ∀ st : term_s,
    st.buffered = true → (∀ op ∈ ops, (logicalPayload op).isSome = true) →
    term_run st ops = ({ st with buf := st.buf ++ (payloads ops).flatten }, []) := by
  induction ops with
  | nil => intro st hb _; simp [term_run, payloads]
  | cons op ops ih =>
    intro st hb hall
    have hop := hall op (by simp)
    have hrest : ∀ o ∈ ops, (logicalPayload o).isSome = true :=
      fun o ho => hall o (by simp [ho])
    obtain ⟨w, ht, ncol, sil, raw, bufd, b⟩ := st
    simp only at hb
    subst hb
    cases op with
    | write s =>
      simp only [term_run, term_step, term_write_n]
      rw [ih _ rfl hrest]
      simp [payloads, List.filterMap, logicalPayload, List.append_assoc]
    | writef s =>
      simp only [term_run, term_step, term_vwritef, term_start_buffered]
      rw [ih _ rfl hrest]
      simp [payloads, List.filterMap, logicalPayload, List.append_assoc]
    | startBuffered => simp [logicalPayload] at hop
    | endBuffered wOk => simp [logicalPayload] at hop
    | enableColor bv => simp [logicalPayload] at hop
    | beep => simp [logicalPayload] at hop
    | startRaw => simp [logicalPayload] at hop
    | endRaw => simp [logicalPayload] at hop

theorem payloads_map_write (ws : List (List Char)) :
    payloads (ws.map TermOp.write) = ws := by
  unfold payloads
  rw [List.filterMap_map]
  have hcomp : logicalPayload ∘ TermOp.write = some := rfl
  rw [hcomp, List.filterMap_some]

theorem term_write_direct_nil (nc : Bool) : term_write_direct nc [] = [] := by
  unfold term_write_direct
  split
  · rfl
  · rw [writeDirectStrip]

/-- Shared core of the buffering claims: from a buffering state, a run of
logical writes followed by `term_end_buffered` emits exactly the one flush
of the accumulated bytes (and nothing at all when they are empty). -/
theorem run_writes_then_flush (st : term_s) (ops : List TermOp)
    (hb : st.buffered = true)
    (hops : ∀ op ∈ ops, (logicalPayload op).isSome = true) :
    (term_run st (ops ++ [TermOp.endBuffered true])).2 =
      if st.buf ++ (payloads ops).flatten = [] then []
      else [Ev.directWrite st.nocolor (st.buf ++ (payloads ops).flatten)] := by
  rw [term_run_append, term_run_logical_writes ops st hb hops]
  obtain ⟨w, ht, ncol, sil, raw, bufd, b⟩ := st
  simp only at hb
  subst hb
  by_cases hfl : b ++ (payloads ops).flatten = []
  · simp [term_run, term_step, term_end_buffered, hfl]
  · simp [term_run, term_step, term_end_buffered, hfl]

/-- C1 is refuted as stated: a buffering cycle whose logical writes carry
zero bytes (here a single `term_write_n` of an empty string) performs zero
physical writes through the Direct Write Path at `term_end_buffered`, not
exactly one. -/
theorem buffered_single_flush_cex :
    directWriteCount (term_run (term_start_buffered (term_init false false))
        [TermOp.write [], TermOp.endBuffered true]).2 ≠ 1 := by decide

/-- C1 (amended): for every sequence of logical write calls
(`term_write`/`term_write_n`/`term_writef`) issued between
`term_start_buffered` and `term_end_buffered`, at most one physical write
through the Direct Write Path occurs; when the concatenated bytes are
nonempty, exactly one occurs, at `term_end_buffered`, and its byte content
equals the concatenation of the logical writes in call order (an empty
concatenation produces no physical write). -/
theorem buffered_single_flush (st : term_s) (ops : List TermOp)
    (hb : st.buffered = true) (hbuf : st.buf = [])
    (hops : ∀ op ∈ ops, (logicalPayload op).isSome = true) :
    (term_run st (ops ++ [TermOp.endBuffered true])).2 =
      if (payloads ops).flatten = [] then []
      else [Ev.directWrite st.nocolor (payloads ops).flatten] := by
  rw [run_writes_then_flush st ops hb hops, hbuf]
  simp

/-- Witness for C1 (amended): two logical writes `"a"` and a formatted
`"b"` inside one buffering cycle flush as the single physical write
`"ab"`. -/
theorem buffered_single_flush_witness :
    (term_run (term_start_buffered (term_init false false))
        ([TermOp.write ['a'], TermOp.writef ['b']] ++ [TermOp.endBuffered true])).2 =
      [Ev.directWrite false ['a', 'b']] := by
  have h := buffered_single_flush (term_start_buffered (term_init false false))
      [TermOp.write ['a'], TermOp.writef ['b']] rfl rfl (by decide)
  exact h.trans (by decide)

/-- C9: `term_end_buffered` reports success when buffering is not active
(and is a no-op); when buffering is active and the flush through the
Direct Write Path fails, it reports failure; in every case the output
buffer ends cleared and the buffering flag ends false (the hypothesis is
the reachable-state invariant that the buffer is empty whenever buffering
is inactive). -/
theorem end_buffered_contract (st : term_s) (wOk : Bool)
    (hinv : st.buffered = false → st.buf = []) :
    (term_end_buffered st wOk).1.buffered = false ∧
    (term_end_buffered st wOk).1.buf = [] ∧
    (st.buffered = false → term_end_buffered st wOk = (st, [], true)) ∧
    (st.buffered = true → st.buf ≠ [] → (term_end_buffered st wOk).2.2 = wOk) := by
  obtain ⟨w, ht, ncol, sil, raw, bufd, b⟩ := st
  cases bufd
  · have hb : b = [] := hinv rfl
    subst hb
    simp [term_end_buffered]
  · by_cases hb : b = []
    · subst hb
      simp [term_end_buffered]
    · simp [term_end_buffered, hb]

/-- Witness for C9: flushing a nonempty buffer with a failing write
reports the failure to the caller. -/
theorem end_buffered_contract_witness :
    (term_end_buffered
        { width := 80, height := 25, nocolor := false, silent := false,
          raw_enabled := false, buffered := true, buf := ['x'] } false).2.2 = false :=
  (end_buffered_contract _ false (by decide)).2.2.2 rfl (by decide)

/-- C8: raw-mode nesting is flattened and idempotent, on the POSIX variant
(`term_start_raw`/`term_end_raw` on the flag) and on the Windows variant
(with its console shadow state): starting raw mode while active is a
no-op, ending it while inactive is a no-op, and start–start–end leaves the
same state as start–end. -/
theorem raw_mode_flattening (st : term_s) (t : wterm) (c : wcon) (q1 q2 : Bool) :
    term_start_raw (term_start_raw st) = term_start_raw st ∧
    (st.raw_enabled = true → term_start_raw st = st) ∧
    (st.raw_enabled = false → term_end_raw st = st) ∧
    term_end_raw (term_start_raw (term_start_raw st)) = term_end_raw (term_start_raw st) ∧
    term_start_raw_w (term_start_raw_w t c q1).1 (term_start_raw_w t c q1).2 q2 =
      term_start_raw_w t c q1 ∧
    (t.raw_enabled = false → term_end_raw_w t c = (t, c)) ∧
    term_end_raw_w
        (term_start_raw_w (term_start_raw_w t c q1).1 (term_start_raw_w t c q1).2 q2).1
        (term_start_raw_w (term_start_raw_w t c q1).1 (term_start_raw_w t c q1).2 q2).2 =
      term_end_raw_w (term_start_raw_w t c q1).1 (term_start_raw_w t c q1).2 := by
  obtain ⟨w, ht, ncol, sil, raw, bufd, b⟩ := st
  obtain ⟨traw, oa, om, oc⟩ := t
  obtain ⟨ca, cm, cc⟩ := c
  cases raw <;> cases traw <;>
    simp [term_start_raw, term_end_raw, term_start_raw_w, term_end_raw_w]

/-- Witness for C8: ending raw mode on a fresh handle is a no-op, and
start–start–end equals start–end from the initial state. -/
theorem raw_mode_flattening_witness :
    term_end_raw (term_init false false) = term_init false false ∧
    term_end_raw (term_start_raw (term_start_raw (term_init false false))) =
      term_end_raw (term_start_raw (term_init false false)) := by
  have h := raw_mode_flattening (term_init false false)
    ⟨false, 0, 0, 0⟩ ⟨7, 3, 5⟩ true false
  exact ⟨h.2.2.1 rfl, h.2.2.2.1⟩

/-- C10: `term_beep` bypasses the Buffered Output Engine: while buffering
is active, a beep (silent flag clear) emits the bell immediately — before,
and not as part of, the single flush, whose content is exactly the
buffered writes — and with the silent flag set it emits nothing at all. -/
theorem beep_bypasses_buffer (st : term_s) (ws : List (List Char))
    (hb : st.buffered = true) (hbuf : st.buf = []) :
    (term_run st (TermOp.beep :: (ws.map TermOp.write ++ [TermOp.endBuffered true]))).2 =
      (if st.silent then [] else [Ev.bell]) ++
      (if ws.flatten = [] then [] else [Ev.directWrite st.nocolor ws.flatten]) := by
  have hstep : term_step st TermOp.beep = (st, if st.silent then [] else [Ev.bell]) := by
    cases hs : st.silent <;> simp [term_step, term_beep, hs]
  have hops : ∀ op ∈ ws.map TermOp.write, (logicalPayload op).isSome = true := by
    intro op hop
    obtain ⟨s, -, rfl⟩ := List.mem_map.mp hop
    rfl
  simp only [term_run, hstep]
  rw [run_writes_then_flush st (ws.map TermOp.write) hb hops, payloads_map_write, hbuf]
  simp

/-- Witness for C10: with buffering active, beeping then writing `"z"`
then flushing yields the bell first and the flush containing only
`"z"`. -/
theorem beep_bypasses_buffer_witness :
    (term_run (term_start_buffered (term_init false false))
        (TermOp.beep :: ([['z']].map TermOp.write ++ [TermOp.endBuffered true]))).2 =
      [Ev.bell, Ev.directWrite false ['z']] := by
  have h := beep_bypasses_buffer (term_start_buffered (term_init false false))
    [['z']] rfl rfl
  exact h.trans (by decide)

theorem term_update_dim_nonneg (st : term_s) (io p1 p2 : Option (Nat × Nat)) :
    0 ≤ (term_update_dim st io p1 p2).1.width ∧
    0 ≤ (term_update_dim st io p1 p2).1.height := by
  rcases io with - | ⟨r, c⟩
  · rcases p1 with - | p1v
    · simp [term_update_dim]
    · rcases p2 with - | ⟨r1, c1⟩
      · simp [term_update_dim]
      · simp [term_update_dim, Int.natCast_nonneg]
  · simp [term_update_dim, Int.natCast_nonneg]

/-- C4 is refuted as stated: a probe in which the ioctl fails and the
cursor-report fallback also fails does not leave the cached dimensions
unchanged — it resets the cached 80×25 to 0×0. -/
theorem update_dim_cex :
    (term_update_dim (term_init false false) none none none).1.width = 0 ∧
    (term_init false false).width = 80 ∧ (0 : Int) ≠ 80 := by decide

/-- C4 (amended): the cached width and height are never negative after
`term_update_dim` or `term_new`; but a probe that cannot determine a
dimension (ioctl failure and failed or absent cursor-report fallback)
resets both cached dimensions to the sentinel 0, discarding the previous
values. -/
theorem dim_nonneg_and_zero_on_failure (st : term_s) (nc sl : Bool)
    (envC envL : Option Int) (io p1 p2 : Option (Nat × Nat)) :
    0 ≤ (term_update_dim st io p1 p2).1.width ∧
    0 ≤ (term_update_dim st io p1 p2).1.height ∧
    0 ≤ (term_new nc sl envC envL io p1 p2).width ∧
    0 ≤ (term_new nc sl envC envL io p1 p2).height ∧
    (io = none → p1 = none →
      (term_update_dim st io p1 p2).1.width = 0 ∧
      (term_update_dim st io p1 p2).1.height = 0) := by
  refine ⟨(term_update_dim_nonneg st io p1 p2).1, (term_update_dim_nonneg st io p1 p2).2,
    (term_update_dim_nonneg _ io p1 p2).1, (term_update_dim_nonneg _ io p1 p2).2, ?_⟩
  intro hio hp1
  subst hio hp1
  simp [term_update_dim]

/-- Witness for C4 (amended): a doubly failed probe on a fresh handle
yields dimensions 0×0 (and in particular non-negative). -/
theorem dim_nonneg_witness :
    (term_update_dim (term_init false false) none none none).1.height = 0 :=
  ((dim_nonneg_and_zero_on_failure (term_init false false) false false none none
    none none none).2.2.2.2 rfl rfl).2

theorem strip_31mA_eval :
    term_write_direct true ['\x1B', '[', '3', '1', 'm', 'A'] = ['A'] := by
  unfold term_write_direct
  rw [if_neg (by simp)]
  rw [writeDirectStrip_esc_some
    (show csiUnit ['[', '3', '1', 'm', 'A'] = some (['[', '3', '1', 'm'], ['A']) by decide)]
  rw [writeDirectStrip_cons_ne_esc (show ('A' : Char) ≠ '\x1B' by decide)]
  rw [writeDirectStrip]
  decide

/-- C5 is refuted as stated: `ESC[31m A` is buffered while color is
enabled, the color is then disabled, and the flush emits only `A` — the
bytes buffered before the toggle are stripped according to the flag value
at flush time, not the value in force when they were written. -/
theorem enable_color_cex :
    consoleOutput (term_run (term_start_buffered (term_init false false))
        [TermOp.write ['\x1B', '[', '3', '1', 'm', 'A'], TermOp.enableColor false,
         TermOp.endBuffered true]).2 = ['A'] ∧
    consoleOutput (term_run (term_start_buffered (term_init false false))
        [TermOp.write ['\x1B', '[', '3', '1', 'm', 'A'], TermOp.enableColor false,
         TermOp.endBuffered true]).2 ≠ ['\x1B', '[', '3', '1', 'm', 'A'] := by
  have hrun : (term_run (term_start_buffered (term_init false false))
      [TermOp.write ['\x1B', '[', '3', '1', 'm', 'A'], TermOp.enableColor false,
       TermOp.endBuffered true]).2 =
      [Ev.directWrite true ['\x1B', '[', '3', '1', 'm', 'A']] := by decide
  rw [hrun]
  have hout : consoleOutput [Ev.directWrite true ['\x1B', '[', '3', '1', 'm', 'A']] =
      ['A'] := by
    simp [consoleOutput, strip_31mA_eval]
  rw [hout]
  exact ⟨rfl, by decide⟩

/-- C5 (amended): `term_enable_color` during buffering is a pure flag
mutation — it leaves the buffer contents, the buffering flag and the other
flags untouched — but the buffered bytes are emitted at the flush under
the flag value in force at `term_end_buffered`, so the toggle affects
already-buffered bytes and later writes alike. -/
theorem enable_color_flush_semantics (st : term_s) (pre post : List (List Char)) (b : Bool)
    (hb : st.buffered = true) (hbuf : st.buf = []) :
    (term_enable_color st b).buf = st.buf ∧
    (term_enable_color st b).buffered = st.buffered ∧
    (term_enable_color st b).silent = st.silent ∧
    consoleOutput (term_run st (pre.map TermOp.write ++ (TermOp.enableColor b ::
        (post.map TermOp.write ++ [TermOp.endBuffered true])))).2 =
      term_write_direct (!b) (pre.flatten ++ post.flatten) := by
  refine ⟨rfl, rfl, rfl, ?_⟩
  have hops1 : ∀ op ∈ pre.map TermOp.write, (logicalPayload op).isSome = true := by
    intro op hop
    obtain ⟨s, -, rfl⟩ := List.mem_map.mp hop
    rfl
  have hops2 : ∀ op ∈ post.map TermOp.write, (logicalPayload op).isSome = true := by
    intro op hop
    obtain ⟨s, -, rfl⟩ := List.mem_map.mp hop
    rfl
  rw [term_run_append, term_run_logical_writes _ st hb hops1]
  simp only [term_run, term_step]
  rw [run_writes_then_flush _ _ (by simp [term_enable_color, hb]) hops2]
  simp only [term_enable_color, payloads_map_write, hbuf]
  by_cases hpp : pre.flatten ++ post.flatten = []
  · simp [consoleOutput, hpp, term_write_direct_nil]
  · simp only [payloads_map_write] at hpp ⊢
    simp [consoleOutput, hpp]

/-- Witness for C5 (amended): buffering `ESC[31m`, disabling color, then
writing `A` and flushing emits the flush under the disabled-color flag. -/
theorem enable_color_flush_witness :
    consoleOutput (term_run (term_start_buffered (term_init false false))
        ([[['\x1B', '[', '3', '1', 'm']].flatten].map TermOp.write ++
          (TermOp.enableColor false ::
            ([['A']].map TermOp.write ++ [TermOp.endBuffered true])))).2 =
      term_write_direct (!false) ([['\x1B', '[', '3', '1', 'm']].flatten ++
        [['A']].flatten) :=
  (enable_color_flush_semantics (term_start_buffered (term_init false false))
    [['\x1B', '[', '3', '1', 'm']] [['A']] false rfl rfl).2.2.2

/-- C6 is refuted as stated: `TERM=um` is none of the six deny-list
identifiers, yet `term_is_interactive` reports non-interactive, because
the code checks whether the `TERM` value is a substring of the deny
string. -/
theorem is_interactive_cex :
    term_is_interactive (some ['u', 'm']) = false ∧
    (['u', 'm'] ∉ ["dumb".toList, "DUMB".toList, "cons25".toList, "CONS25".toList,
      "emacs".toList, "EMACS".toList]) := by decide

/-- C6 (amended): `term_is_interactive` returns false exactly when `TERM`
is present and its value occurs as a contiguous substring of
`"dumb|DUMB|cons25|CONS25|emacs|EMACS"` (which includes the six
identifiers, but also fragments such as `"um"` and the empty string);
when `TERM` is absent it returns true. -/
theorem is_interactive_iff_substring :
    term_is_interactive none = true ∧
    ∀ t : List Char, term_is_interactive (some t) = false ↔ t <:+: denyTerms := by
  refine ⟨rfl, ?_⟩
  intro t
  unfold term_is_interactive
  rw [Bool.not_eq_false']
  exact strstr_found_iff_infix t denyTerms

/-- Witness for C6 (amended): evaluated at `TERM=dumb` (denied, an infix
of the deny string) and at `TERM=xterm` (not an infix, interactive). -/
theorem is_interactive_iff_substring_witness :
    term_is_interactive (some "dumb".toList) = false ∧
    term_is_interactive (some "xterm".toList) = true := by
  have h := is_interactive_iff_substring
  constructor
  · exact (h.2 "dumb".toList).mpr (by decide)
  · have := (h.2 "xterm".toList).not
    rcases hx : term_is_interactive (some "xterm".toList) with - | -
    · exact absurd ((h.2 "xterm".toList).mp hx) (by decide)
    · rfl

theorem getLast?_unit (a b : Char) (p : List Char) (c : Char) :
    (a :: b :: (p ++ [c])).getLast? = some c := by
  rw [show a :: b :: (p ++ [c]) = (a :: b :: p) ++ [c] by simp]
  exact List.getLast?_concat _

theorem esc_param_default {p : List Char} (hp : leadNum p = none) {c : Char}
    (hc : isDigitCh c = false) (d : Int) : esc_param (p ++ [c]) d = d := by
  unfold esc_param
  rw [leadNum_append_nondigit hc p, hp]

/-- C7 is refuted as stated: a parameterless line-erase sequence `ESC[K`
is dispatched with its parameter defaulted to 0, not 1. -/
theorem esc_dispatch_defaults_cex :
    term_write_esc_w ['\x1B', '[', 'K'] = win_cmd.erase_line 0 ∧
    win_cmd.erase_line 0 ≠ win_cmd.erase_line 1 := by decide

/-- C7 (amended): in the ANSI-to-console emulation path, a CSI sequence
whose numeric parameter is absent or unparsable is dispatched with the
parameter defaulted to 1 for the cursor-movement commands (`A`/`B`/`C`/`D`)
and to 0 for line erase (`K`), screen clear (`J`) and the attribute
command (`m`). -/
theorem esc_dispatch_defaults (p : List Char) (hp : leadNum p = none) :
    term_write_esc_w ('\x1B' :: '[' :: (p ++ ['A'])) = win_cmd.move_cursor (-1) 0 1 ∧
    term_write_esc_w ('\x1B' :: '[' :: (p ++ ['B'])) = win_cmd.move_cursor 1 0 1 ∧
    term_write_esc_w ('\x1B' :: '[' :: (p ++ ['C'])) = win_cmd.move_cursor 0 1 1 ∧
    term_write_esc_w ('\x1B' :: '[' :: (p ++ ['D'])) = win_cmd.move_cursor 0 (-1) 1 ∧
    term_write_esc_w ('\x1B' :: '[' :: (p ++ ['K'])) = win_cmd.erase_line 0 ∧
    term_write_esc_w ('\x1B' :: '[' :: (p ++ ['J'])) = win_cmd.clear_screen 0 ∧
    term_write_esc_w ('\x1B' :: '[' :: (p ++ ['m'])) = win_cmd.esc_attr 0 := by
  refine ⟨?_, ?_, ?_, ?_, ?_, ?_, ?_⟩
  · unfold term_write_esc_w
    rw [getLast?_unit]
    show win_cmd.move_cursor (-1) 0 (esc_param (p ++ ['A']) 1) = _
    rw [esc_param_default hp (by decide)]
  · unfold term_write_esc_w
    rw [getLast?_unit]
    show win_cmd.move_cursor 1 0 (esc_param (p ++ ['B']) 1) = _
    rw [esc_param_default hp (by decide)]
  · unfold term_write_esc_w
    rw [getLast?_unit]
    show win_cmd.move_cursor 0 1 (esc_param (p ++ ['C']) 1) = _
    rw [esc_param_default hp (by decide)]
  · unfold term_write_esc_w
    rw [getLast?_unit]
    show win_cmd.move_cursor 0 (-1) (esc_param (p ++ ['D']) 1) = _
    rw [esc_param_default hp (by decide)]
  · unfold term_write_esc_w
    rw [getLast?_unit]
    show win_cmd.erase_line (esc_param (p ++ ['K']) 0) = _
    rw [esc_param_default hp (by decide)]
  · unfold term_write_esc_w
    rw [getLast?_unit]
    show win_cmd.clear_screen (esc_param (p ++ ['J']) 0) = _
    rw [esc_param_default hp (by decide)]
  · unfold term_write_esc_w
    rw [getLast?_unit]
    show win_cmd.esc_attr (esc_param (p ++ ['m']) 0) = _
    rw [esc_param_default hp (by decide)]

/-- Witness for C7 (amended): the empty parameter area, i.e. the plain
sequences `ESC[A` … `ESC[m`. -/
theorem esc_dispatch_defaults_witness :
    term_write_esc_w ('\x1B' :: '[' :: ([] ++ ['A'])) = win_cmd.move_cursor (-1) 0 1 ∧
    term_write_esc_w ('\x1B' :: '[' :: ([] ++ ['B'])) = win_cmd.move_cursor 1 0 1 ∧
    term_write_esc_w ('\x1B' :: '[' :: ([] ++ ['C'])) = win_cmd.move_cursor 0 1 1 ∧
    term_write_esc_w ('\x1B' :: '[' :: ([] ++ ['D'])) = win_cmd.move_cursor 0 (-1) 1 ∧
    term_write_esc_w ('\x1B' :: '[' :: ([] ++ ['K'])) = win_cmd.erase_line 0 ∧
    term_write_esc_w ('\x1B' :: '[' :: ([] ++ ['J'])) = win_cmd.clear_screen 0 ∧
    term_write_esc_w ('\x1B' :: '[' :: ([] ++ ['m'])) = win_cmd.esc_attr 0 :=
  esc_dispatch_defaults [] rfl

/-- C2: writing any byte string with color disabled through the
pass-through/strip Direct Write Path produces output equal to the input
with every CSI sequence whose final byte is `'m'` and whose first numeric
parameter lies in 30..49 or 90..109 removed, and all other bytes —
including non-color CSI sequences — written through unchanged (stated for
all inputs, in particular those containing such a sequence). -/
theorem write_direct_nocolor_strips_colors (s : List Char) :
    term_write_direct true s = stripColorsSpec s := by
  unfold term_write_direct
  rw [if_neg (by simp)]
  exact writeDirectStrip_eq_spec_aux s.length s le_rfl

/-- Evaluation of the strip path on `"\x1B[31mHELLO\x1B[0m"`: the color
sequence `ESC[31m` (parameter 31) is dropped, `ESC[0m` (parameter 0,
outside 30..49 and 90..109) is written through. -/
theorem strip_hello_eval :
    term_write_direct true ("\x1B[31mHELLO\x1B[0m".toList) = "HELLO\x1B[0m".toList := by
  unfold term_write_direct
  rw [if_neg (by simp)]
  rw [show ("\x1B[31mHELLO\x1B[0m".toList) =
    '\x1B' :: ['[', '3', '1', 'm', 'H', 'E', 'L', 'L', 'O', '\x1B', '[', '0', 'm'] by decide]
  rw [writeDirectStrip_esc_some
    (show csiUnit ['[', '3', '1', 'm', 'H', 'E', 'L', 'L', 'O', '\x1B', '[', '0', 'm'] =
      some (['[', '3', '1', 'm'], ['H', 'E', 'L', 'L', 'O', '\x1B', '[', '0', 'm']) by decide)]
  rw [writeDirectStrip_cons_ne_esc (show ('H' : Char) ≠ '\x1B' by decide)]
  rw [writeDirectStrip_cons_ne_esc (show ('E' : Char) ≠ '\x1B' by decide)]
  rw [writeDirectStrip_cons_ne_esc (show ('L' : Char) ≠ '\x1B' by decide)]
  rw [writeDirectStrip_cons_ne_esc (show ('L' : Char) ≠ '\x1B' by decide)]
  rw [writeDirectStrip_cons_ne_esc (show ('O' : Char) ≠ '\x1B' by decide)]
  rw [writeDirectStrip_esc_some
    (show csiUnit ['[', '0', 'm'] = some (['[', '0', 'm'], []) by decide)]
  rw [writeDirectStrip]
  decide

/-- C3 is refuted as stated: writing `"\x1B[31mHELLO\x1B[0m"` with color
disabled through the pass-through/strip path does not yield the raw bytes
`HELLO` — an escape sequence survives in the output. -/
theorem strip_hello_cex :
    term_write_direct true ("\x1B[31mHELLO\x1B[0m".toList) ≠ "HELLO".toList := by
  rw [strip_hello_eval]
  decide

/-- C3 (amended): writing `"\x1B[31mHELLO\x1B[0m"` with color disabled
through the pass-through/strip Direct Write Path yields the bytes
`HELLO\x1B[0m`: the color sequence `ESC[31m` is stripped, but the
trailing `ESC[0m` reset — whose parameter 0 lies outside 30..49 and
90..109 — is written through unchanged. -/
theorem strip_hello_keeps_reset :
    term_write_direct true ("\x1B[31mHELLO\x1B[0m".toList) = "HELLO\x1B[0m".toList :=
  strip_hello_eval

end Term
